import Mathlib

set_option autoImplicit false

/-
Shallow embedding of pyeda/boolfunc.py: the Variable order, the generic
cofactor enumeration of the Function contract, the mapping expansion of
vrestrict, and the VectorFunction bit-vector container with its window
indexing and numeric conversions.  Machine integers are modelled as Int,
Python exceptions as an explicit error type, and mutation as state passing.
-/

namespace PyEDA

/-- Python exception kinds distinguished by the error taxonomy of this
module: `indexError` is IndexError("list index out of range"),
`zeroSizedSlice` is IndexError("zero-sized slice") -- a distinct error per
the spec --, `valueError` is the ValueError raised by to_uint, `typeErr`
the TypeError raised when Python compares None with an int, `assertErr`
the failing assert in _expand_vectors, and `attributeErr` the
AttributeError raised when a method is called on an object lacking it. -/
inductive PyErr where
  | indexError
  | zeroSizedSlice
  | valueError
  | typeErr
  | assertErr
  | attributeErr
deriving DecidableEq, Repr

/-- Decidable equality of Except values, used to evaluate witnesses on
concrete inputs. -/
instance {ε α : Type} [DecidableEq ε] [DecidableEq α] : DecidableEq (Except ε α) :=
  fun a b =>
    match a, b with
    | .ok x, .ok y =>
      if h : x = y then .isTrue (congrArg Except.ok h)
      else .isFalse (fun hc => h (Except.ok.inj hc))
    | .error x, .error y =>
      if h : x = y then .isTrue (congrArg Except.error h)
      else .isFalse (fun hc => h (Except.error.inj hc))
    | .ok _, .error _ => .isFalse (fun hc => Except.noConfusion hc)
    | .error _, .ok _ => .isFalse (fun hc => Except.noConfusion hc)

/-- Python list subscription with an integer index: a nonnegative index
addresses from the front, a negative index has the length added once, and
anything still out of range raises IndexError. -/
def pyGet {α : Type} (l : List α) (i : Int) : Except PyErr α :=
  let j := if i ≥ 0 then i else i + l.length
  if h : 0 ≤ j ∧ j < (l.length : Int) then
    .ok (l.get ⟨j.toNat, by omega⟩)
  else
    .error .indexError

/-- Python list item assignment with an integer index, same index
normalization as subscription. -/
def pySet {α : Type} (l : List α) (i : Int) (x : α) : Except PyErr (List α) :=
  let j := if i ≥ 0 then i else i + l.length
  if 0 ≤ j ∧ j < (l.length : Int) then
    .ok (l.set j.toNat x)
  else
    .error .indexError

/-- Python list slicing with bounds already known to lie in [0, len]:
the elements at positions a, a+1, ..., b-1. -/
def pySliceTake {α : Type} (l : List α) (a b : Int) : List α :=
  (l.take b.toNat).drop a.toNat

/-- Embedding of VectorFunction.__init__: the element storage `fs`
(position 0 is least significant), the window origin `start` (an int, may
be negative), and the binary number representation `bnr`, stored as a
plain integer exactly as the Python class attributes
UNSIGNED, TWOS_COMPLEMENT = range(2). -/
structure VectorFunction (α : Type) where
  fs : List α
  start : Int
  bnr : Nat
deriving DecidableEq, Repr

/-- Value of the class attribute VectorFunction.UNSIGNED. -/
def UNSIGNED : Nat := 0

/-- Value of the class attribute VectorFunction.TWOS_COMPLEMENT. -/
def TWOS_COMPLEMENT : Nat := 1

namespace VectorFunction

/-- Embedding of VectorFunction._norm_idx: normalize a single integer
index to the window origin.  The nonnegative branch checks the window;
the negative branch adds `start` without any check. -/
def norm_idx {α : Type} (v : VectorFunction α) (i : Int) : Except PyErr Int :=
  if i ≥ 0 then
    if i < v.start then .error .indexError
    else .ok (i - v.start)
  else .ok (i + v.start)

/-- Embedding of VectorFunction.__getitem__ on an integer subscript:
normalize through norm_idx, then Python list subscription on `fs`. -/
def getItemInt {α : Type} (v : VectorFunction α) (i : Int) : Except PyErr α :=
  (v.norm_idx i).bind (fun idx => pyGet v.fs idx)

/-- Embedding of VectorFunction.getifz: get item from zero-based index. -/
def getifz {α : Type} (v : VectorFunction α) (i : Int) : Except PyErr α :=
  v.getItemInt (i + v.start)

/-- Embedding of VectorFunction._norm_slice on a slice with optional
bounds (step is absent from the source paths modelled here): resolve
absent bounds to the window bounds, add the window stop to negative
bounds, raise IndexError for bounds outside the window, raise the
distinct zero-sized-slice error for an empty normalized range, and return
storage-relative bounds. -/
def norm_slice {α : Type} (v : VectorFunction α) (sl : Option Int × Option Int) :
    Except PyErr (Int × Int) :=
  let stop : Int := (v.fs.length : Int) + v.start
  let lstart : Int :=
    match sl.1 with
    | some idx => if idx ≥ 0 then idx else stop + idx
    | none => v.start
  let lstop : Int :=
    match sl.2 with
    | some idx => if idx ≥ 0 then idx else stop + idx
    | none => stop
  if lstart < v.start ∨ lstop > stop then .error .indexError
  else if lstart ≥ lstop then .error .zeroSizedSlice
  else .ok (lstart - v.start, lstop - v.start)

/-- Embedding of VectorFunction.__getitem__ on a slice subscript: the
normalized storage sub-range, with the parent start added back to the
normalized slice start and the same bnr. -/
def getItemSlice {α : Type} (v : VectorFunction α) (sl : Option Int × Option Int) :
    Except PyErr (VectorFunction α) :=
  (v.norm_slice sl).map (fun ab =>
    { fs := pySliceTake v.fs ab.1 ab.2, start := ab.1 + v.start, bnr := v.bnr })

/-- Embedding of VectorFunction.__setitem__ on an integer subscript: the
raw storage position is written, with no start-offset translation. -/
def setItemInt {α : Type} (v : VectorFunction α) (i : Int) (x : α) :
    Except PyErr (VectorFunction α) :=
  (pySet v.fs i x).map (fun l => { v with fs := l })

/-- Embedding of VectorFunction.append: push one element at the high
end. -/
def append {α : Type} (v : VectorFunction α) (f : α) : VectorFunction α :=
  { v with fs := v.fs ++ [f] }

end VectorFunction

/-- A Python value stored in a vector element: either a concrete machine
integer or a symbolic Boolean function drawn from an abstract type F. -/
inductive PyVal (F : Type) where
  | int (n : Int)
  | func (f : F)
deriving DecidableEq, Repr

/-- Python truthiness of a stored element: a nonzero integer is truthy,
and a Function object defines no __bool__ or __len__, so it is truthy
like any plain object. -/
def PyVal.truthy {F : Type} : PyVal F → Bool
  | .int n => n != 0
  | .func _ => true

namespace VectorFunction

/-- Loop of VectorFunction.to_uint: running storage position `i`,
accumulator `num`; an element whose type is not exactly int raises
ValueError immediately, a truthy int adds 2 ^ i. -/
def to_uint_go {F : Type} : List (PyVal F) → Nat → Int → Except PyErr Int
  | [], _, num => .ok num
  | .int n :: fs, i, num => to_uint_go fs (i + 1) (if n ≠ 0 then num + 2 ^ i else num)
  | .func _ :: _, _, _ => .error .valueError

/-- Embedding of VectorFunction.to_uint. -/
def to_uint {F : Type} (v : VectorFunction (PyVal F)) : Except PyErr Int :=
  to_uint_go v.fs 0 0

/-- Embedding of VectorFunction.to_int.  The Python condition
`self._bnr == self.TWOS_COMPLEMENT and self.fs[-1]` short-circuits, so
the last element is read only in the twos-complement case. -/
def to_int {F : Type} (v : VectorFunction (PyVal F)) : Except PyErr Int := do
  let num ← v.to_uint
  if v.bnr = TWOS_COMPLEMENT then
    let last ← pyGet v.fs (-1)
    if last.truthy then
      return -2 ^ v.fs.length + num
    else
      return num
  else
    return num

/-- Embedding of VectorFunction.ext: the extension bit is computed once
before the loop -- the last element for twos complement (raising
IndexError on an empty vector), the int 0 otherwise -- then appended
`num` times. -/
def ext {F : Type} (v : VectorFunction (PyVal F)) (num : Nat) :
    Except PyErr (VectorFunction (PyVal F)) := do
  let bit ← if v.bnr = TWOS_COMPLEMENT then pyGet v.fs (-1) else pure (PyVal.int 0)
  return (List.range num).foldl (fun w _ => w.append bit) v

end VectorFunction

/-- Calling the restrict method on a stored element, as the loop body of
VectorFunction.restrict does: an int element has no restrict attribute
and raises AttributeError; a Function element delegates to the abstract
Function-level restrict primitive. -/
def PyVal.callRestrict {F M : Type} (restrictF : F → M → F) (m : M) :
    PyVal F → Except PyErr (PyVal F)
  | .int _ => .error .attributeErr
  | .func f => .ok (.func (restrictF f m))

namespace VectorFunction

/-- Embedding of VectorFunction.restrict: copy the vector with the full
window slice self[:], then for each raw position i read cpy[i] through
window-translated indexing, call the element restrict method, and write
the result back at the raw storage position i. -/
def restrict {F M : Type} (restrictF : F → M → F)
    (v : VectorFunction (PyVal F)) (m : M) : Except PyErr (VectorFunction (PyVal F)) := do
  let cpy ← v.getItemSlice (none, none)
  (List.range cpy.fs.length).foldlM
    (fun w i => do
      let e ← w.getItemInt (i : Int)
      let e2 ← PyVal.callRestrict restrictF m e
      w.setItemInt (i : Int) e2)
    cpy

end VectorFunction

/-- Embedding of the Variable class: a name together with an optional
index attribute (None becomes Option.none). -/
structure Variable where
  name : String
  index : Option Int
deriving DecidableEq, Repr

/-- Embedding of Variable.__lt__: on equal names the raw index attributes
are compared with the Python int order, which raises TypeError as soon as
either side is None; on differing names the lexicographic name order
decides, regardless of the indices. -/
def Variable.lt (a b : Variable) : Except PyErr Bool :=
  if a.name = b.name then
    match a.index, b.index with
    | some i, some j => .ok (decide (i < j))
    | _, _ => .error .typeErr
  else
    .ok (decide (a.name < b.name))

/-- Test whether a stored element is a concrete machine integer, as the
check `type(f) is int` does. -/
def PyVal.isInt {F : Type} : PyVal F → Bool
  | .int _ => true
  | .func _ => false

/-- A Python object usable as a mapping value in vrestrict: either a
sequence, supporting len and enumerate, or an atom. -/
inductive PyObj (A : Type) where
  | seq (l : List (PyObj A))
  | atom (a : A)

/-- The Python membership test `k not in d` on the keys of a dict. -/
def pyNotIn {κ : Type} [DecidableEq κ] (k : κ) (ks : List κ) : Bool :=
  !(decide (k ∈ ks))

/-- Python dict assignment d[k] = v: overwrite the value at an existing
key keeping its position, else append the new binding at the end. -/
def pyDictSet {κ ω : Type} [DecidableEq κ] (d : List (κ × ω)) (k : κ) (v : ω) :
    List (κ × ω) :=
  if k ∈ d.map Prod.fst then
    d.map (fun p => if p.1 = k then (k, v) else p)
  else d ++ [(k, v)]

/-- Python dict lookup d[k], as an option. -/
def pyDictGet {κ ω : Type} [DecidableEq κ] (d : List (κ × ω)) (k : κ) : Option ω :=
  (d.find? (fun p => decide (p.1 = k))).map Prod.snd

/-- Modelled from the spec: bit_on(n, i) lives in pyeda.common, which
boolfunc.py imports but which is not among the given sources; per the
spec it returns bit i of n. -/
def bit_on (n i : Nat) : Nat := n / 2 ^ i % 2

/-- The dict comprehension in iter_cofactors, the mapping sending v to
bit_on(n, i) for i, v in enumerate(vs). -/
def cofactorDict {V : Type} [DecidableEq V] (vs : List V) (n : Nat) :
    List (V × Nat) :=
  vs.enum.foldl (fun d p => pyDictSet d p.2 (bit_on n p.1)) []

/-- Embedding of Function.iter_cofactors over an abstract restrict
primitive; the default argument vs=None becomes the empty list, and the
generator is modelled as the list of its yields in order. -/
def iter_cofactors {V F : Type} [DecidableEq V] (restrict : List (V × Nat) → F)
    (vs : Option (List V)) : List F :=
  let vl := vs.getD []
  (List.range (2 ^ vl.length)).map (fun n => restrict (cofactorDict vl n))

/-- Embedding of Function.cofactors: the same sequence materialized as a
tuple. -/
def cofactors {V F : Type} [DecidableEq V] (restrict : List (V × Nat) → F)
    (vs : Option (List V)) : List F :=
  iter_cofactors restrict vs

/-- One step of the while loop in _expand_vectors for a popped
vector-keyed entry: after the assert len(key) == len(val) -- a TypeError
when the value has no len, a failing assert when the lengths differ --
insert mapping[key.getifz(i)] = f for i, f in enumerate(val). -/
def expandEntry {E A : Type} [DecidableEq E]
    (d : List (Sum (VectorFunction E) E × PyObj A))
    (key : VectorFunction E) (val : PyObj A) :
    Except PyErr (List (Sum (VectorFunction E) E × PyObj A)) :=
  match val with
  | .atom _ => .error .typeErr
  | .seq l =>
    if key.fs.length = l.length then
      l.enum.foldlM
        (fun d p => (key.getifz (p.1 : Int)).map
          (fun e => pyDictSet d (Sum.inr e) p.2))
        d
    else .error .assertErr

/-- The while loop of _expand_vectors over the popped entries, head
first; dict.popitem pops the most recently inserted entry, so the caller
passes the vector-keyed entries reversed.  The branch for a non-vector
key is dead code in the source, kept for fidelity. -/
def expandLoop {E A : Type} [DecidableEq E] :
    List (Sum (VectorFunction E) E × PyObj A) →
      List (Sum (VectorFunction E) E × PyObj A) →
      Except PyErr (List (Sum (VectorFunction E) E × PyObj A))
  | d, [] => .ok d
  | d, (Sum.inl key, val) :: rest =>
    (expandEntry d key val).bind (fun d2 => expandLoop d2 rest)
  | d, (Sum.inr k, val) :: rest => expandLoop (pyDictSet d (Sum.inr k) val) rest

/-- Embedding of _expand_vectors: collect the VectorFunction-keyed
entries into temp, rebuild the mapping from the entries whose key is not
in temp, then pop temp last-in-first-out and expand each popped entry
into the rebuilt mapping. -/
def _expand_vectors {E A : Type} [DecidableEq E]
    (mapping : List (Sum (VectorFunction E) E × PyObj A)) :
    Except PyErr (List (Sum (VectorFunction E) E × PyObj A)) :=
  expandLoop
    (mapping.filter (fun p =>
      pyNotIn p.1 ((mapping.filter (fun q => q.1.isLeft)).map Prod.fst)))
    (mapping.filter (fun p => p.1.isLeft)).reverse

/-- Embedding of Function.vrestrict over an abstract restrict primitive;
a concrete implementation consumes the expanded mapping through key
lookup, so restrict receives the lookup function of the expanded dict. -/
def Function.vrestrict {E A F : Type} [DecidableEq E]
    (restrict : (Sum (VectorFunction E) E → Option (PyObj A)) → F)
    (mapping : List (Sum (VectorFunction E) E × PyObj A)) : Except PyErr F :=
  (_expand_vectors mapping).map (fun d => restrict (fun k => pyDictGet d k))

/-- The per-position scalar entries the spec prescribes for one
vector-keyed entry: require len(key) == len(val) -- a contract violation
otherwise -- and pair the i-th logical element of the key, addressed the
way VectorFunction addresses a zero-based window position (getifz), with
the i-th element of the value by plain sequence position. -/
def specEntryPairs {E A : Type} (key : VectorFunction E) (val : PyObj A) :
    Except PyErr (List (Sum (VectorFunction E) E × PyObj A)) :=
  match val with
  | .atom _ => .error .typeErr
  | .seq l =>
    if key.fs.length = l.length then
      l.enum.mapM (fun p => (key.getifz (p.1 : Int)).map
        (fun e => ((Sum.inr e : Sum (VectorFunction E) E), p.2)))
    else .error .assertErr

/-- The per-position entries contributed by one mapping entry: a
vector-keyed entry contributes its spec expansion, a scalar entry
contributes nothing. -/
def pairsOf {E A : Type} (p : Sum (VectorFunction E) E × PyObj A) :
    Except PyErr (List (Sum (VectorFunction E) E × PyObj A)) :=
  match p.1 with
  | Sum.inl key => specEntryPairs key p.2
  | Sum.inr _ => .ok []

/-- All expanded per-position entries of a mapping, vector-keyed entries
taken in mapping order. -/
def expandedPairs {E A : Type}
    (mapping : List (Sum (VectorFunction E) E × PyObj A)) :
    Except PyErr (List (Sum (VectorFunction E) E × PyObj A)) :=
  ((mapping.filter (fun p => p.1.isLeft)).mapM pairsOf).map List.join

/-- The flattening prescribed by the spec, written from its words:
partition the mapping into vector-keyed and scalar entries, expand each
vector-keyed entry into its per-position scalar entries, and merge all
expanded entries into the untouched scalar entries. -/
def flattenSpec {E A : Type} [DecidableEq E]
    (mapping : List (Sum (VectorFunction E) E × PyObj A)) :
    Except PyErr (List (Sum (VectorFunction E) E × PyObj A)) :=
  (expandedPairs mapping).map (fun ps =>
    ps.foldl (fun d p => pyDictSet d p.1 p.2)
      (mapping.filter (fun p => !p.1.isLeft)))

/-- Left-biased choice on options, the lookup combinator of an
association list split in two. -/
def optOr {ω : Type} : Option ω → Option ω → Option ω
  | some v, _ => some v
  | none, o => o

section NumericLemmas

variable {F : Type}

theorem to_uint_go_error_iff (fs : List (PyVal F)) (i : Nat) (num : Int) :
    VectorFunction.to_uint_go fs i num = Except.error PyErr.valueError ↔
      ∃ e ∈ fs, e.isInt = false := by
  induction fs generalizing i num with
  | nil => simp [VectorFunction.to_uint_go]
  | cons e fs ih =>
    cases e with
    | int n =>
      simp only [VectorFunction.to_uint_go, ih]
      constructor
      · rintro ⟨x, hx, h⟩; exact ⟨x, List.mem_cons_of_mem _ hx, h⟩
      · rintro ⟨x, hx, h⟩
        rcases List.mem_cons.mp hx with rfl | hx
        · simp [PyVal.isInt] at h
        · exact ⟨x, hx, h⟩
    | func f =>
      simp [VectorFunction.to_uint_go, PyVal.isInt]

theorem to_uint_go_eq_sum (fs : List (PyVal F)) (i : Nat) (num : Int)
    (h : ∀ e ∈ fs, e.isInt = true) :
    VectorFunction.to_uint_go fs i num =
      Except.ok (num + ∑ j ∈ Finset.range fs.length,
        if (fs.getD j (PyVal.int 0)).truthy then (2 : Int) ^ (i + j) else 0) := by
  induction fs generalizing i num with
  | nil => simp [VectorFunction.to_uint_go]
  | cons e fs ih =>
    cases e with
    | int n =>
      have hfs : ∀ e ∈ fs, e.isInt = true := fun e he => h e (List.mem_cons_of_mem _ he)
      simp only [VectorFunction.to_uint_go, ih _ _ hfs, List.length_cons]
      congr 1
      rw [Finset.sum_range_succ']
      simp only [List.getD_cons_succ, List.getD_cons_zero]
      have hsum : ∀ j ∈ Finset.range fs.length,
          (if (fs.getD j (PyVal.int 0)).truthy then (2 : Int) ^ (i + 1 + j) else 0) =
            (if (fs.getD j (PyVal.int 0)).truthy then (2 : Int) ^ (i + (j + 1)) else 0) := by
        intro j _
        have : i + 1 + j = i + (j + 1) := by omega
        rw [this]
      rw [Finset.sum_congr rfl hsum]
      by_cases hn : n = 0
      · simp [hn, PyVal.truthy]
      · simp only [hn, PyVal.truthy]
        simp [hn]
        ring
    | func f =>
      have := h (PyVal.func f) (List.mem_cons_self _ _)
      simp [PyVal.isInt] at this

theorem to_uint_go_isOk (fs : List (PyVal F)) (i : Nat) (num : Int)
    (h : ∀ e ∈ fs, e.isInt = true) :
    ∃ u, VectorFunction.to_uint_go fs i num = Except.ok u :=
  ⟨_, to_uint_go_eq_sum fs i num h⟩

theorem ok_bind {ε α β : Type} (a : α) (f : α → Except ε β) :
    (Except.ok (ε := ε) a >>= f) = f a := rfl

theorem pyGet_neg_one {α : Type} (l : List α) (h : l ≠ []) :
    pyGet l (-1) = Except.ok (l.getLast h) := by
  have hlen : 0 < l.length := List.length_pos.mpr h
  unfold pyGet
  have hcond : ¬ ((-1 : Int) ≥ 0) := by omega
  simp only [hcond, if_false]
  have hdif : (0 : Int) ≤ -1 + l.length ∧ (-1 + (l.length : Int)) < l.length := by
    constructor <;> omega
  rw [dif_pos hdif]
  have h1 : ((-1 : Int) + (l.length : Int)).toNat = l.length - 1 := by omega
  simp only [List.get_eq_getElem, h1, List.getLast_eq_getElem]

theorem foldl_append_range {α : Type} (v : VectorFunction α) (b : α) (n : Nat) :
    (List.range n).foldl (fun w _ => w.append b) v =
      { fs := v.fs ++ List.replicate n b, start := v.start, bnr := v.bnr } := by
  induction n with
  | zero => simp
  | succ n ih =>
    rw [List.range_succ, List.foldl_append, ih]
    simp [VectorFunction.append, List.replicate_succ']

end NumericLemmas

/-- C7: to_uint fails with the conversion error exactly when some stored
element is not a concrete integer; otherwise it returns the sum, over
storage positions j independent of start, of 2 ^ j for every truthy
element. -/
theorem to_uint_spec {F : Type} (v : VectorFunction (PyVal F)) :
    (v.to_uint = Except.error PyErr.valueError ↔ ∃ e ∈ v.fs, e.isInt = false) ∧
    ((∀ e ∈ v.fs, e.isInt = true) →
      v.to_uint = Except.ok (∑ j ∈ Finset.range v.fs.length,
        if (v.fs.getD j (PyVal.int 0)).truthy then (2 : Int) ^ j else 0)) := by
  constructor
  · exact to_uint_go_error_iff v.fs 0 0
  · intro h
    rw [VectorFunction.to_uint, to_uint_go_eq_sum v.fs 0 0 h]
    simp

/-- Witness for C7 at a concrete vector: 1101 (little endian) with an
extra non-0/1 truthy int, value 1 + 4 + 8 = 13, and a symbolic vector
raising the conversion error. -/
theorem to_uint_spec_witness :
    VectorFunction.to_uint (F := Unit)
        ⟨[.int 1, .int 0, .int 2, .int 1], 0, 0⟩ = Except.ok 13 ∧
    VectorFunction.to_uint (F := Unit)
        ⟨[.int 1, .func ()], 0, 0⟩ = Except.error PyErr.valueError := by
  constructor
  · have h := (to_uint_spec (F := Unit) ⟨[.int 1, .int 0, .int 2, .int 1], 0, 0⟩).2
      (by decide)
    rw [h]
    decide
  · exact (to_uint_spec (F := Unit) ⟨[.int 1, .func ()], 0, 0⟩).1.mpr
      ⟨PyVal.func (), by decide, rfl⟩

/-- C2: on a vector whose elements are all concrete integers, to_int
equals to_uint unless the representation is twos complement and the last
element is truthy, in which case it equals to_uint minus 2 ^ length; in
particular the all-ones vector of length four decodes to -1. -/
theorem to_int_spec {F : Type} (v : VectorFunction (PyVal F))
    (hall : ∀ e ∈ v.fs, e.isInt = true)
    (hne : v.bnr = TWOS_COMPLEMENT → v.fs ≠ []) :
    (∃ u, v.to_uint = Except.ok u ∧
      v.to_int = Except.ok
        (if v.bnr = TWOS_COMPLEMENT ∧ (v.fs.getLast?.getD (PyVal.int 0)).truthy
         then u - 2 ^ v.fs.length else u)) ∧
    VectorFunction.to_int (F := F)
        ⟨[.int 1, .int 1, .int 1, .int 1], 0, TWOS_COMPLEMENT⟩ = Except.ok (-1) := by
  constructor
  · obtain ⟨u, hu⟩ := to_uint_go_isOk v.fs 0 0 hall
    have hu' : v.to_uint = Except.ok u := hu
    refine ⟨u, hu', ?_⟩
    unfold VectorFunction.to_int
    rw [hu']
    by_cases hbnr : v.bnr = TWOS_COMPLEMENT
    · have hfs : v.fs ≠ [] := hne hbnr
      rw [pyGet_neg_one v.fs hfs]
      have hlast : v.fs.getLast?.getD (PyVal.int 0) = v.fs.getLast hfs := by
        rw [List.getLast?_eq_getLast v.fs hfs]
        rfl
      by_cases ht : (v.fs.getLast hfs).truthy
      · simp only [hbnr, hlast, ht, ok_bind, and_true, if_true]
        have : -(2 : Int) ^ v.fs.length + u = u - 2 ^ v.fs.length := by ring
        rw [this]
        rfl
      · simp only [hbnr, hlast, ok_bind]
        rw [if_neg ht]
        simp [ht]
        rfl
    · simp only [ok_bind]
      rw [if_neg hbnr]
      simp [hbnr]
      rfl
  · rfl

/-- Witness for C2 at the all-ones twos-complement vector of length
four. -/
theorem to_int_spec_witness :
    VectorFunction.to_int (F := Unit)
        ⟨[.int 1, .int 1, .int 1, .int 1], 0, TWOS_COMPLEMENT⟩ = Except.ok (-1) := by
  obtain ⟨⟨u, hu, hi⟩, -⟩ := to_int_spec (F := Unit)
    ⟨[.int 1, .int 1, .int 1, .int 1], 0, TWOS_COMPLEMENT⟩ (by decide) (fun _ => by decide)
  have hu15 : u = 15 := by
    have : Except.ok (ε := PyErr) u = Except.ok (15 : Int) := by rw [← hu]; decide
    exact (Except.ok.injEq _ _).mp this
  rw [hi, hu15]
  decide

/-- C8: ext on a non-empty vector appends exactly n copies of one
extension bit -- the current most-significant element under twos
complement, the constant int 0 otherwise -- leaving start and the
existing elements unchanged. -/
theorem ext_spec {F : Type} (v : VectorFunction (PyVal F)) (n : Nat)
    (hne : v.fs ≠ []) :
    v.ext n = Except.ok
      { fs := v.fs ++ List.replicate n
          (if v.bnr = TWOS_COMPLEMENT then v.fs.getLast hne else PyVal.int 0),
        start := v.start, bnr := v.bnr } := by
  unfold VectorFunction.ext
  by_cases hbnr : v.bnr = TWOS_COMPLEMENT
  · rw [if_pos hbnr, pyGet_neg_one v.fs hne]
    rw [if_pos hbnr]
    simp only [ok_bind, foldl_append_range]
    rw [hbnr]
    rfl
  · rw [if_neg hbnr, if_neg hbnr]
    simp only [ok_bind, foldl_append_range]
    rfl

/-- Witness for C8: sign extension of a twos-complement vector with top
bit 1 appends ones; zero extension of the unsigned twin appends zeros. -/
theorem ext_spec_witness :
    VectorFunction.ext (F := Unit)
        ⟨[.int 0, .int 1, .int 0, .int 1], 0, TWOS_COMPLEMENT⟩ 2 =
      Except.ok ⟨[.int 0, .int 1, .int 0, .int 1, .int 1, .int 1], 0, TWOS_COMPLEMENT⟩ ∧
    VectorFunction.ext (F := Unit)
        ⟨[.int 0, .int 1, .int 0, .int 1], 0, UNSIGNED⟩ 2 =
      Except.ok ⟨[.int 0, .int 1, .int 0, .int 1, .int 0, .int 0], 0, UNSIGNED⟩ := by
  constructor
  · rw [ext_spec (F := Unit) ⟨[.int 0, .int 1, .int 0, .int 1], 0, TWOS_COMPLEMENT⟩ 2
      (by decide)]
    decide
  · rw [ext_spec (F := Unit) ⟨[.int 0, .int 1, .int 0, .int 1], 0, UNSIGNED⟩ 2
      (by decide)]
    decide

/-- C9: on a zero-length vector to_uint returns 0 for either
representation and to_int returns 0 when unsigned, while under twos
complement both to_int and ext (for every count, including zero) raise
IndexError by reading the absent last element. -/
theorem empty_vector_spec {F : Type} (s : Int) (n : Nat) :
    VectorFunction.to_uint (F := F) ⟨[], s, UNSIGNED⟩ = Except.ok 0 ∧
    VectorFunction.to_uint (F := F) ⟨[], s, TWOS_COMPLEMENT⟩ = Except.ok 0 ∧
    VectorFunction.to_int (F := F) ⟨[], s, UNSIGNED⟩ = Except.ok 0 ∧
    VectorFunction.to_int (F := F) ⟨[], s, TWOS_COMPLEMENT⟩ = Except.error PyErr.indexError ∧
    VectorFunction.ext (F := F) ⟨[], s, TWOS_COMPLEMENT⟩ n = Except.error PyErr.indexError := by
  refine ⟨rfl, rfl, rfl, rfl, ?_⟩
  rfl

/-- C6: reading an element behaves as the literal rule of the source: a
negative subscript is translated to storage position i + start with no
window check (the asymmetric rule, taking precedence for i < 0), a
nonnegative subscript at or above start is translated to storage position
i - start, and a nonnegative subscript below start raises IndexError. -/
theorem getItemInt_spec {α : Type} (v : VectorFunction α) (i : Int) :
    (i < 0 → v.getItemInt i = pyGet v.fs (i + v.start)) ∧
    (0 ≤ i → v.start ≤ i → v.getItemInt i = pyGet v.fs (i - v.start)) ∧
    (0 ≤ i → i < v.start → v.getItemInt i = Except.error PyErr.indexError) := by
  refine ⟨?_, ?_, ?_⟩ <;> intro h1
  · have hge : ¬ (i ≥ 0) := by omega
    simp [VectorFunction.getItemInt, VectorFunction.norm_idx, hge, Except.bind]
  · intro h2
    have hlt : ¬ (i < v.start) := by omega
    simp [VectorFunction.getItemInt, VectorFunction.norm_idx, h1, hlt, Except.bind]
  · intro h2
    simp [VectorFunction.getItemInt, VectorFunction.norm_idx, h1, h2, Except.bind]

/-- Witness for C6 on a vector with start 2: in-window read, below-window
failure, and the literal negative-subscript translation. -/
theorem getItemInt_spec_witness :
    VectorFunction.getItemInt (α := Int) ⟨[10, 20, 30], 2, 0⟩ 3 = Except.ok 20 ∧
    VectorFunction.getItemInt (α := Int) ⟨[10, 20, 30], 2, 0⟩ 1 =
      Except.error PyErr.indexError ∧
    VectorFunction.getItemInt (α := Int) ⟨[10, 20, 30], 2, 0⟩ (-1) = Except.ok 20 := by
  refine ⟨?_, ?_, ?_⟩
  · rw [(getItemInt_spec (α := Int) ⟨[10, 20, 30], 2, 0⟩ 3).2.1 (by decide) (by decide)]
    decide
  · exact (getItemInt_spec (α := Int) ⟨[10, 20, 30], 2, 0⟩ 1).2.2 (by decide) (by decide)
  · rw [(getItemInt_spec (α := Int) ⟨[10, 20, 30], 2, 0⟩ (-1)).1 (by decide)]
    decide

/-- C5: a slice read first resolves the requested bounds against the
window (absent bounds become the window bounds, a negative bound has the
window stop added), then raises IndexError when a resolved bound leaves
the window, raises the distinct zero-sized-slice error when the resolved
range is empty, and otherwise returns a vector of the same class and bnr
holding the storage positions L - start, ..., U - start - 1, whose start
is the normalized slice start plus the parent start. -/
theorem getItemSlice_spec {α : Type} (v : VectorFunction α) (os oe : Option Int)
    (L U : Int)
    (hL : L = (match os with
      | some a => if a ≥ 0 then a else ((v.fs.length : Int) + v.start) + a
      | none => v.start))
    (hU : U = (match oe with
      | some b => if b ≥ 0 then b else ((v.fs.length : Int) + v.start) + b
      | none => (v.fs.length : Int) + v.start)) :
    ((L < v.start ∨ U > (v.fs.length : Int) + v.start) →
      v.getItemSlice (os, oe) = Except.error PyErr.indexError) ∧
    (v.start ≤ L → U ≤ (v.fs.length : Int) + v.start → U ≤ L →
      v.getItemSlice (os, oe) = Except.error PyErr.zeroSizedSlice) ∧
    (v.start ≤ L → U ≤ (v.fs.length : Int) + v.start → L < U →
      v.getItemSlice (os, oe) = Except.ok
        { fs := (v.fs.drop (L - v.start).toNat).take (U - L).toNat,
          start := (L - v.start) + v.start, bnr := v.bnr }) := by
  have hbody : v.getItemSlice (os, oe) =
      if L < v.start ∨ U > (v.fs.length : Int) + v.start then Except.error PyErr.indexError
      else if L ≥ U then Except.error PyErr.zeroSizedSlice
      else Except.ok
        { fs := pySliceTake v.fs (L - v.start) (U - v.start),
          start := (L - v.start) + v.start, bnr := v.bnr } := by
    rw [VectorFunction.getItemSlice, VectorFunction.norm_slice]
    rw [← hL, ← hU]
    by_cases h1 : L < v.start ∨ U > (v.fs.length : Int) + v.start
    · rw [if_pos h1, if_pos h1]; rfl
    · rw [if_neg h1, if_neg h1]
      by_cases h2 : L ≥ U
      · rw [if_pos h2, if_pos h2]; rfl
      · rw [if_neg h2, if_neg h2]; rfl
  refine ⟨?_, ?_, ?_⟩
  · intro h1
    rw [hbody, if_pos h1]
  · intro ha hb hc
    have h1 : ¬ (L < v.start ∨ U > (v.fs.length : Int) + v.start) := by omega
    rw [hbody, if_neg h1, if_pos hc]
  · intro ha hb hc
    have h1 : ¬ (L < v.start ∨ U > (v.fs.length : Int) + v.start) := by omega
    have h2 : ¬ (L ≥ U) := by omega
    rw [hbody, if_neg h1, if_neg h2]
    have htd : pySliceTake v.fs (L - v.start) (U - v.start) =
        (v.fs.drop (L - v.start).toNat).take (U - L).toNat := by
      rw [pySliceTake, List.drop_take]
      congr 1
      omega
    rw [htd]

/-- Witness for C5 on a four-element vector with start 2 and window
[2, 6): an in-window sub-slice, a negative bound resolved against the
window stop, a below-window range error, and an empty-range error. -/
theorem getItemSlice_spec_witness :
    VectorFunction.getItemSlice (α := Int) ⟨[10, 20, 30, 40], 2, 0⟩ (some 3, some 5) =
      Except.ok ⟨[20, 30], 3, 0⟩ ∧
    VectorFunction.getItemSlice (α := Int) ⟨[10, 20, 30, 40], 2, 0⟩ (some (-1), none) =
      Except.ok ⟨[40], 5, 0⟩ ∧
    VectorFunction.getItemSlice (α := Int) ⟨[10, 20, 30, 40], 2, 0⟩ (some 1, none) =
      Except.error PyErr.indexError ∧
    VectorFunction.getItemSlice (α := Int) ⟨[10, 20, 30, 40], 2, 0⟩ (some 3, some 3) =
      Except.error PyErr.zeroSizedSlice := by
  refine ⟨?_, ?_, ?_, ?_⟩
  · rw [(getItemSlice_spec (α := Int) ⟨[10, 20, 30, 40], 2, 0⟩ (some 3) (some 5) 3 5
      (by decide) (by decide)).2.2 (by decide) (by decide) (by decide)]
    decide
  · rw [(getItemSlice_spec (α := Int) ⟨[10, 20, 30, 40], 2, 0⟩ (some (-1)) none 5 6
      (by decide) (by decide)).2.2 (by decide) (by decide) (by decide)]
    decide
  · exact (getItemSlice_spec (α := Int) ⟨[10, 20, 30, 40], 2, 0⟩ (some 1) none 1 6
      (by decide) (by decide)).1 (by decide)
  · exact (getItemSlice_spec (α := Int) ⟨[10, 20, 30, 40], 2, 0⟩ (some 3) (some 3) 3 3
      (by decide) (by decide)).2.1 (by decide) (by decide) (by decide)

/-- C10: the less-than comparison of two Variables with equal names and
at least one absent index does not return a Boolean but raises TypeError;
with both indices present on equal names it returns the numeric index
comparison; with differing names it returns the lexicographic name
comparison regardless of indices. -/
theorem variable_lt_spec (a b : Variable) :
    (a.name = b.name → a.index = none ∨ b.index = none →
      a.lt b = Except.error PyErr.typeErr) ∧
    (∀ i j, a.name = b.name → a.index = some i → b.index = some j →
      a.lt b = Except.ok (decide (i < j))) ∧
    (a.name ≠ b.name → a.lt b = Except.ok (decide (a.name < b.name))) := by
  refine ⟨?_, ?_, ?_⟩
  · intro hn hnone
    cases ha : a.index <;> cases hb : b.index <;>
      simp [Variable.lt, hn, ha, hb] at hnone ⊢
  · intro i j hn hi hj
    rw [Variable.lt, if_pos hn, hi, hj]
  · intro hn
    rw [Variable.lt, if_neg hn]


section DictLemmas

variable {κ ω : Type} [DecidableEq κ]

theorem pyDictSet_fresh (d : List (κ × ω)) (k : κ) (v : ω)
    (h : k ∉ d.map Prod.fst) : pyDictSet d k v = d ++ [(k, v)] := by
  rw [pyDictSet, if_neg h]

theorem pyDictSet_foldl_fresh (ps : List (κ × ω)) (d : List (κ × ω))
    (hnd : (ps.map Prod.fst).Nodup)
    (hdisj : ∀ k ∈ ps.map Prod.fst, k ∉ d.map Prod.fst) :
    ps.foldl (fun d p => pyDictSet d p.1 p.2) d = d ++ ps := by
  induction ps generalizing d with
  | nil => simp
  | cons p ps ih =>
    simp only [List.map_cons, List.nodup_cons] at hnd
    have hp : p.1 ∉ d.map Prod.fst := hdisj p.1 (by simp)
    simp only [List.foldl_cons, pyDictSet_fresh d p.1 p.2 hp]
    rw [ih (d ++ [(p.1, p.2)]) hnd.2]
    · simp
    · intro k hk
      simp only [List.map_append, List.mem_append, List.map_cons, List.map_nil,
        List.mem_singleton, not_or]
      refine ⟨hdisj k (by simp [hk]), ?_⟩
      intro hkp
      exact hnd.1 (hkp ▸ hk)

theorem error_bind {ε α β : Type} (e : ε) (f : α → Except ε β) :
    (Except.error (α := α) e >>= f) = Except.error e := rfl

theorem pure_eq_ok {ε α : Type} (a : α) : (pure a : Except ε α) = Except.ok a := rfl

theorem map_ok_eq {ε α β : Type} (f : α → β) (a : α) :
    (Except.ok (ε := ε) a).map f = Except.ok (f a) := rfl

theorem map_error_eq {ε α β : Type} (f : α → β) (e : ε) :
    (Except.error (α := α) e).map f = Except.error (α := β) e := rfl

theorem pyDictGet_nil (k : κ) : pyDictGet ([] : List (κ × ω)) k = none := rfl

theorem pyDictGet_cons (p : κ × ω) (ps : List (κ × ω)) (k : κ) :
    pyDictGet (p :: ps) k = if p.1 = k then some p.2 else pyDictGet ps k := by
  rw [pyDictGet, List.find?]
  by_cases h : p.1 = k
  · rw [decide_eq_true h, if_pos h]
    rfl
  · rw [decide_eq_false h, if_neg h]
    rfl

theorem pyDictGet_append (xs ys : List (κ × ω)) (k : κ) :
    pyDictGet (xs ++ ys) k = optOr (pyDictGet xs k) (pyDictGet ys k) := by
  induction xs with
  | nil => simp [pyDictGet_nil, optOr]
  | cons p xs ih =>
    rw [List.cons_append, pyDictGet_cons, pyDictGet_cons]
    by_cases h : p.1 = k
    · rw [if_pos h, if_pos h]
      rfl
    · rw [if_neg h, if_neg h, ih]

theorem pyDictGet_eq_none_of_not_mem (ps : List (κ × ω)) (k : κ)
    (h : k ∉ ps.map Prod.fst) : pyDictGet ps k = none := by
  induction ps with
  | nil => rfl
  | cons p ps ih =>
    simp only [List.map_cons, List.mem_cons, not_or] at h
    rw [pyDictGet_cons, if_neg (fun he => h.1 he.symm)]
    exact ih h.2

theorem mem_of_pyDictGet_some (ps : List (κ × ω)) (k : κ) (v : ω)
    (h : pyDictGet ps k = some v) : k ∈ ps.map Prod.fst := by
  by_contra hmem
  rw [pyDictGet_eq_none_of_not_mem ps k hmem] at h
  exact Option.noConfusion h

theorem pyDictGet_perm (l₁ l₂ : List (κ × ω)) (hp : l₁.Perm l₂)
    (hnd : (l₂.map Prod.fst).Nodup) (k : κ) :
    pyDictGet l₁ k = pyDictGet l₂ k := by
  induction hp with
  | nil => rfl
  | cons x hp ih =>
    simp only [List.map_cons, List.nodup_cons] at hnd
    rw [pyDictGet_cons, pyDictGet_cons, ih hnd.2]
  | swap x y l =>
    simp only [List.map_cons, List.nodup_cons, List.mem_cons, not_or] at hnd
    rw [pyDictGet_cons, pyDictGet_cons, pyDictGet_cons, pyDictGet_cons]
    by_cases hy : y.1 = k
    · by_cases hx : x.1 = k
      · exact absurd (hx.trans hy.symm) hnd.1.1
      · rw [if_pos hy, if_neg hx, if_pos hy]
    · by_cases hx : x.1 = k
      · rw [if_neg hy, if_pos hx, if_pos hx]
      · rw [if_neg hy, if_neg hx, if_neg hx, if_neg hy]
  | trans h12 h23 ih12 ih23 =>
    rename_i la lb lc
    have hndb : (lb.map Prod.fst).Nodup :=
      ((h23.map Prod.fst).nodup_iff).mpr hnd
    rw [ih12 hndb, ih23 hnd]

theorem pyDictGet_self_of_nodup (ps : List (κ × ω))
    (hnd : (ps.map Prod.fst).Nodup) (i : Nat) (hi : i < ps.length) :
    pyDictGet ps (ps.get ⟨i, hi⟩).1 = some (ps.get ⟨i, hi⟩).2 := by
  induction ps generalizing i with
  | nil => simp at hi
  | cons p ps ih =>
    simp only [List.map_cons, List.nodup_cons] at hnd
    cases i with
    | zero => simp [pyDictGet, List.find?]
    | succ i =>
      have hi' : i < ps.length := by simpa using hi
      have hmem : (ps.get ⟨i, hi'⟩).1 ∈ ps.map Prod.fst :=
        List.mem_map_of_mem Prod.fst (ps.get_mem i hi')
      have hne : ¬ (p.1 = (ps.get ⟨i, hi'⟩).1) := by
        intro he
        exact hnd.1 (he ▸ hmem)
      have : pyDictGet (p :: ps) ((p :: ps).get ⟨i + 1, hi⟩).1 =
          pyDictGet ps (ps.get ⟨i, hi'⟩).1 := by
        simp only [pyDictGet, List.get_cons_succ, List.find?]
        rw [decide_eq_false hne]
      rw [this, ih hnd.2 i hi']
      rfl

end DictLemmas

section ExpandLemmas

variable {E A : Type} [DecidableEq E]

theorem expandEntry_eq (d : List (Sum (VectorFunction E) E × PyObj A))
    (key : VectorFunction E) (val : PyObj A) :
    expandEntry d key val = (specEntryPairs key val).map
      (fun ps => ps.foldl (fun d p => pyDictSet d p.1 p.2) d) := by
  cases val with
  | atom a => rfl
  | seq l =>
    rw [expandEntry, specEntryPairs]
    by_cases hlen : key.fs.length = l.length
    · rw [if_pos hlen, if_pos hlen]
      generalize l.enum = xs
      induction xs generalizing d with
      | nil => rfl
      | cons x xs ih =>
        rw [List.foldlM_cons, List.mapM_cons]
        cases hg : key.getifz (x.1 : Int) with
        | error e =>
          simp only [hg, map_error_eq, error_bind]
        | ok el =>
          simp only [hg, map_ok_eq, ok_bind]
          rw [ih (pyDictSet d (Sum.inr el) x.2)]
          cases hm : xs.mapM (fun p => (key.getifz (p.1 : Int)).map
              (fun e => ((Sum.inr e : Sum (VectorFunction E) E), p.2))) with
          | error e2 => simp only [hm, map_error_eq, error_bind]
          | ok ps =>
            simp only [hm, map_ok_eq, ok_bind, pure_eq_ok]
            rfl
    · rw [if_neg hlen, if_neg hlen]
      rfl

theorem mapM_ok_reverse {α β : Type} (f : α → Except PyErr β) (l : List α)
    (ys : List β) (h : l.mapM f = Except.ok ys) :
    l.reverse.mapM f = Except.ok ys.reverse := by
  induction l generalizing ys with
  | nil =>
    rw [List.mapM_nil] at h
    cases h
    rfl
  | cons x l ih =>
    rw [List.mapM_cons] at h
    cases hx : f x with
    | error e => rw [hx, error_bind] at h; exact Except.noConfusion h
    | ok y =>
      rw [hx, ok_bind] at h
      cases hm : l.mapM f with
      | error e => rw [hm, error_bind] at h; exact Except.noConfusion h
      | ok ys' =>
        rw [hm, ok_bind] at h
        have hys : ys = y :: ys' := by
          have := Except.ok.inj h
          exact this.symm
        rw [List.reverse_cons, List.mapM_append, ih ys' hm]
        simp only [pure_eq_ok, ok_bind, List.mapM_cons, hx, List.mapM_nil]
        rw [hys, List.reverse_cons]

theorem expandLoop_eq (es : List (Sum (VectorFunction E) E × PyObj A))
    (d : List (Sum (VectorFunction E) E × PyObj A))
    (pss : List (List (Sum (VectorFunction E) E × PyObj A)))
    (hleft : ∀ p ∈ es, p.1.isLeft = true)
    (hm : es.mapM pairsOf = Except.ok pss) :
    expandLoop d es = Except.ok
      ((pss.join).foldl (fun d p => pyDictSet d p.1 p.2) d) := by
  induction es generalizing d pss with
  | nil =>
    rw [List.mapM_nil] at hm
    cases hm
    rfl
  | cons p es ih =>
    obtain ⟨pk, pval⟩ := p
    cases pk with
    | inr s => exact absurd (hleft (Sum.inr s, pval) (by simp)) (by simp)
    | inl key =>
      rw [List.mapM_cons] at hm
      cases hs : pairsOf ((Sum.inl key : Sum (VectorFunction E) E), pval) with
      | error e => rw [hs, error_bind] at hm; exact Except.noConfusion hm
      | ok ps =>
        rw [hs, ok_bind] at hm
        cases hm2 : es.mapM pairsOf with
        | error e => rw [hm2, error_bind] at hm; exact Except.noConfusion hm
        | ok pss' =>
          rw [hm2, ok_bind] at hm
          have hpss : pss = ps :: pss' := (Except.ok.inj hm).symm
          have hspec : specEntryPairs key pval = Except.ok ps := hs
          show (expandEntry d key pval).bind (fun d2 => expandLoop d2 es) = _
          rw [expandEntry_eq, hspec, map_ok_eq]
          show expandLoop (ps.foldl (fun d p => pyDictSet d p.1 p.2) d) es = _
          rw [ih _ _ (fun q hq => hleft q (List.mem_cons_of_mem _ hq)) hm2, hpss]
          have hj : (ps :: pss').join = ps ++ pss'.join := rfl
          rw [hj, List.foldl_append]

theorem rest_eq_scalars (mapping : List (Sum (VectorFunction E) E × PyObj A)) :
    mapping.filter (fun p =>
        pyNotIn p.1 ((mapping.filter (fun q => q.1.isLeft)).map Prod.fst))
      = mapping.filter (fun p => !p.1.isLeft) := by
  apply List.filter_congr
  intro p hp
  rw [pyNotIn]
  congr 1
  cases hk : p.1 with
  | inl key =>
    have hmem : (Sum.inl key : Sum (VectorFunction E) E) ∈
        (mapping.filter (fun q => q.1.isLeft)).map Prod.fst := by
      rw [← hk]
      apply List.mem_map_of_mem Prod.fst
      rw [List.mem_filter]
      exact ⟨hp, by rw [hk]; rfl⟩
    have hleft : (Sum.inl key : Sum (VectorFunction E) E).isLeft = true := rfl
    rw [hleft]
    simp only [decide_eq_true_eq]
    exact hmem
  | inr s =>
    have hnmem : (Sum.inr s : Sum (VectorFunction E) E) ∉
        (mapping.filter (fun q => q.1.isLeft)).map Prod.fst := by
      intro hmem
      obtain ⟨q, hq, hqe⟩ := List.mem_map.mp hmem
      have hql := (List.mem_filter.mp hq).2
      rw [hqe] at hql
      simp at hql
    have hright : (Sum.inr s : Sum (VectorFunction E) E).isLeft = false := rfl
    rw [hright]
    simp only [decide_eq_false_iff_not]
    exact hnmem

end ExpandLemmas

theorem cofactorDict_eq_of_nodup {V : Type} [DecidableEq V]
    (vs : List V) (n : Nat) (hnd : vs.Nodup) :
    cofactorDict vs n = vs.enum.map (fun p => (p.2, bit_on n p.1)) := by
  rw [cofactorDict, ← List.foldl_map (fun p => (p.2, bit_on n p.1))
    (fun d p => pyDictSet d p.1 p.2) vs.enum []]
  rw [pyDictSet_foldl_fresh _ [] ?hk (by simp)]
  · simp
  case hk =>
    have : (vs.enum.map (fun p => (p.2, bit_on n p.1))).map Prod.fst = vs := by
      rw [List.map_map]
      exact List.enum_map_snd vs
    rw [this]
    exact hnd

/-- C1: iter_cofactors(vs) yields exactly 2 ^ k restrictions; the n-th
yield applies restrict to the dict built by assigning vs[i] the value of
bit i of n, so vs[0] is the fastest-varying position; on a duplicate-free
variable list that dict has exactly the variables as keys and sends vs[i]
to bit i of n; an omitted or empty variable list yields exactly one
restriction of the empty mapping; and cofactors materializes the same
sequence in the same order. -/
theorem iter_cofactors_spec {V F : Type} [DecidableEq V]
    (restrict : List (V × Nat) → F) (vs : List V) :
    cofactors restrict (some vs) = iter_cofactors restrict (some vs) ∧
    (iter_cofactors restrict (some vs)).length = 2 ^ vs.length ∧
    (∀ n, n < 2 ^ vs.length →
      (iter_cofactors restrict (some vs)).get? n =
        some (restrict (cofactorDict vs n))) ∧
    (vs.Nodup → ∀ n,
      (cofactorDict vs n).map Prod.fst = vs ∧
      ∀ i (hi : i < vs.length),
        pyDictGet (cofactorDict vs n) (vs.get ⟨i, hi⟩) = some (bit_on n i)) ∧
    iter_cofactors restrict none = [restrict []] ∧
    iter_cofactors restrict (some []) = [restrict []] := by
  have hkeys : ∀ n, vs.Nodup →
      (cofactorDict vs n).map Prod.fst = vs := by
    intro n hnd
    rw [cofactorDict_eq_of_nodup vs n hnd, List.map_map]
    exact List.enum_map_snd vs
  refine ⟨rfl, by simp [iter_cofactors], ?_, ?_, rfl, rfl⟩
  · intro n hn
    rw [iter_cofactors]
    simp only [Option.getD_some]
    rw [List.get?_map, List.get?_range hn]
    rfl
  · intro hnd n
    refine ⟨hkeys n hnd, ?_⟩
    intro i hi
    have hlen : (vs.enum.map (fun p => (p.2, bit_on n p.1))).length = vs.length := by
      simp
    have hnd' : ((vs.enum.map (fun p => (p.2, bit_on n p.1))).map Prod.fst).Nodup := by
      have h2 : (vs.enum.map (fun p => (p.2, bit_on n p.1))).map Prod.fst = vs := by
        rw [List.map_map]
        exact List.enum_map_snd vs
      rw [h2]
      exact hnd
    have hget := pyDictGet_self_of_nodup _ hnd' i (by rw [hlen]; exact hi)
    rw [cofactorDict_eq_of_nodup vs n hnd]
    have hgi : ((vs.enum.map (fun p => (p.2, bit_on n p.1))).get
        ⟨i, by rw [hlen]; exact hi⟩) = (vs.get ⟨i, hi⟩, bit_on n i) := by
      simp [List.get_enum]
    rw [hgi] at hget
    exact hget

/-- Witness for C1 at vs = [5, 7] with restrict the identity on the
mapping: the four cofactor mappings appear in the spec order, and the
dict for n = 2 sends vs[1] = 7 to bit 1 of 2. -/
theorem iter_cofactors_spec_witness :
    iter_cofactors (V := Nat) (F := List (Nat × Nat)) (fun d => d) (some [5, 7]) =
      [[(5, 0), (7, 0)], [(5, 1), (7, 0)], [(5, 0), (7, 1)], [(5, 1), (7, 1)]] ∧
    pyDictGet (cofactorDict [5, 7] 2) (([5, 7] : List Nat).get ⟨1, by decide⟩) =
      some (bit_on 2 1) := by
  refine ⟨by decide, ?_⟩
  exact ((iter_cofactors_spec (V := Nat) (F := List (Nat × Nat)) (fun d => d)
    [5, 7]).2.2.2.1 (by decide) 2).2 1 (by decide)

/-- C3: vrestrict equals restrict applied to the flat mapping the spec
prescribes.  Hypotheses: every vector-keyed entry expands (its value is a
sequence of the same length whose positions all resolve through getifz,
which is what expandedPairs succeeding states), the expanded keys are
pairwise distinct -- without this the flat mapping of the claim is not
well defined, and the last-in-first-out popitem order of the source can
differ from the mapping order -- and no expanded key collides with a
literal scalar key.  The expanded dict of the source and the pure
partition-expand-merge flattening of the spec then agree as key-value
mappings, so restrict receives the same lookup function. -/
theorem vrestrict_spec {E A F : Type} [DecidableEq E]
    (restrict : (Sum (VectorFunction E) E → Option (PyObj A)) → F)
    (mapping P : List (Sum (VectorFunction E) E × PyObj A))
    (hP : expandedPairs mapping = Except.ok P)
    (hPnd : (P.map Prod.fst).Nodup)
    (hdisj : ∀ k ∈ P.map Prod.fst,
      k ∉ (mapping.filter (fun p => !p.1.isLeft)).map Prod.fst) :
    ∃ flat, flattenSpec mapping = Except.ok flat ∧
      Function.vrestrict restrict mapping =
        Except.ok (restrict (fun k => pyDictGet flat k)) := by
  obtain ⟨pss, hm, hPj⟩ : ∃ pss,
      (mapping.filter (fun p => p.1.isLeft)).mapM pairsOf = Except.ok pss ∧
        P = pss.join := by
    rw [expandedPairs] at hP
    cases hmm : (mapping.filter (fun p => p.1.isLeft)).mapM pairsOf with
    | error e =>
      rw [hmm, map_error_eq] at hP
      exact Except.noConfusion hP
    | ok pss =>
      rw [hmm, map_ok_eq] at hP
      exact ⟨pss, rfl, (Except.ok.inj hP).symm⟩
  have hfl : flattenSpec mapping = Except.ok
      (P.foldl (fun d p => pyDictSet d p.1 p.2)
        (mapping.filter (fun p => !p.1.isLeft))) := by
    rw [flattenSpec, hP, map_ok_eq]
  refine ⟨_, hfl, ?_⟩
  have hleft : ∀ p ∈ (mapping.filter (fun p => p.1.isLeft)).reverse,
      p.1.isLeft = true := by
    intro p hp
    rw [List.mem_reverse] at hp
    exact (List.mem_filter.mp hp).2
  have hmrev : (mapping.filter (fun p => p.1.isLeft)).reverse.mapM pairsOf =
      Except.ok pss.reverse :=
    mapM_ok_reverse pairsOf _ pss hm
  have hcode : _expand_vectors mapping = Except.ok
      ((pss.reverse.join).foldl (fun d p => pyDictSet d p.1 p.2)
        (mapping.filter (fun p => !p.1.isLeft))) := by
    rw [_expand_vectors, rest_eq_scalars]
    exact expandLoop_eq _ _ _ hleft hmrev
  have hperm : (pss.reverse.join).Perm P := by
    rw [hPj]
    exact (List.reverse_perm pss).join
  have hfresh : ∀ Q : List (Sum (VectorFunction E) E × PyObj A), Q.Perm P →
      Q.foldl (fun d p => pyDictSet d p.1 p.2)
          (mapping.filter (fun p => !p.1.isLeft)) =
        (mapping.filter (fun p => !p.1.isLeft)) ++ Q := by
    intro Q hq
    apply pyDictSet_foldl_fresh
    · exact ((hq.map Prod.fst).nodup_iff).mpr hPnd
    · intro k hk
      exact hdisj k (((hq.map Prod.fst).mem_iff).mp hk)
  rw [Function.vrestrict, hcode, map_ok_eq]
  congr 1
  refine congrArg restrict (funext fun k => ?_)
  rw [hfresh _ hperm, hfresh P (List.Perm.refl P)]
  rw [pyDictGet_append, pyDictGet_append,
    pyDictGet_perm (pss.reverse.join) P hperm hPnd]

/-- Witness for C3: a two-element vector key with elements 1 and 2 maps
to the sequence of atoms 10 and 20 next to the untouched scalar entry at
key 5; vrestrict hands restrict a lookup on which the expanded key 1
resolves to atom 10. -/
theorem vrestrict_spec_witness :
    Function.vrestrict (E := Nat) (A := Nat) (F := Option (PyObj Nat))
      (fun look => look (Sum.inr 1))
      [(Sum.inl ⟨[1, 2], 0, 0⟩, PyObj.seq [PyObj.atom 10, PyObj.atom 20]),
       (Sum.inr 5, PyObj.atom 99)] = Except.ok (some (PyObj.atom 10)) := by
  obtain ⟨flat, hflat, hvr⟩ := vrestrict_spec (E := Nat) (A := Nat)
    (F := Option (PyObj Nat)) (fun look => look (Sum.inr 1))
    [(Sum.inl ⟨[1, 2], 0, 0⟩, PyObj.seq [PyObj.atom 10, PyObj.atom 20]),
     (Sum.inr 5, PyObj.atom 99)]
    [(Sum.inr 1, PyObj.atom 10), (Sum.inr 2, PyObj.atom 20)]
    rfl (by decide) (by intro k hk hmem; simp at hk hmem; rcases hk with rfl | rfl <;> simp_all)
  have hflat2 : flat = [(Sum.inr 5, PyObj.atom 99), (Sum.inr 1, PyObj.atom 10),
      (Sum.inr 2, PyObj.atom 20)] := by
    have h2 : Except.ok (ε := PyErr) flat =
        Except.ok [((Sum.inr 5 : Sum (VectorFunction Nat) Nat), PyObj.atom 99),
          (Sum.inr 1, PyObj.atom 10), (Sum.inr 2, PyObj.atom 20)] := by
      rw [← hflat]
      rfl
    exact Except.ok.inj h2
  rw [hvr, hflat2]
  rfl

/-- C4: evaluation of VectorFunction.restrict at a failing input, a
one-element vector whose window origin is 1.  The docstring promises the
vector of element-wise restrictions, but the loop reads cpy[0] through
window-translated indexing, 0 is below the window [1, 2), and the call
raises IndexError before restricting anything.  The second conjunct shows
the promised behavior does hold for the same elements when start is 0:
the loop then reads, restricts and writes matching positions. -/
theorem restrict_start_one_raises :
    VectorFunction.restrict (F := Nat) (M := Unit) (fun f _ => f + 10)
      ⟨[PyVal.func 1], 1, UNSIGNED⟩ () = Except.error PyErr.indexError ∧
    VectorFunction.restrict (F := Nat) (M := Unit) (fun f _ => f + 10)
      ⟨[PyVal.func 1, PyVal.func 2], 0, UNSIGNED⟩ () =
      Except.ok ⟨[PyVal.func 11, PyVal.func 12], 0, UNSIGNED⟩ := by
  exact ⟨rfl, rfl⟩

/-- Witness for C10: equal names with one absent index raise TypeError,
equal names with both indices compare numerically, and differing names
compare lexicographically whatever the indices are. -/
theorem variable_lt_spec_witness :
    Variable.lt ⟨"c", none⟩ ⟨"c", some 1⟩ = Except.error PyErr.typeErr ∧
    Variable.lt ⟨"c", some 1⟩ ⟨"c", some 10⟩ = Except.ok true ∧
    Variable.lt ⟨"b", some 7⟩ ⟨"a", some 2⟩ = Except.ok false := by
  refine ⟨?_, ?_, ?_⟩
  · exact (variable_lt_spec ⟨"c", none⟩ ⟨"c", some 1⟩).1 rfl (Or.inl rfl)
  · rw [(variable_lt_spec ⟨"c", some 1⟩ ⟨"c", some 10⟩).2.1 1 10 rfl rfl rfl]
    decide
  · rw [(variable_lt_spec ⟨"b", some 7⟩ ⟨"a", some 2⟩).2.2 (by decide)]
    simp [String.lt_iff_toList_lt]
    decide

end PyEDA
